import Mathlib

/-!
Verification of the object store, tree builder, commit graph and reference
store of the `gitc` repository (src/main.py), as a shallow embedding.

Modelling conventions:
* Byte strings (`bytes`) are `List Nat`.
* SHA-256 is abstracted as a parameter `sha : List Nat → List Nat` giving the
  raw digest bytes; `hashlib.sha256(x).hexdigest()` is `toHex (sha x)`.
* zlib is abstracted by parameters `compress`/`decompress`; the round-trip
  theorem assumes `decompress (compress x) = x`, which zlib satisfies.
* Python text strings are `String`; `.encode()` maps chars to their code
  points (`strToBytes`), `.decode()` is `bytesToStr`.
* The object store maps the digest (hex string, which determines the object
  path `objects/<h[:2]>/<h[2:]>` bijectively) to the stored compressed bytes.
  `write_object` also reports the list of file writes it performs, which the
  source performs unconditionally.
-/

/-- ASCII/UTF-8-codepoint encoding of a Python string, `str.encode()`. -/
def strToBytes (s : String) : List Nat := s.data.map Char.toNat

/-- Decoding bytes back to a string, `bytes.decode()`. -/
def bytesToStr (l : List Nat) : String := String.mk (l.map Char.ofNat)

/-- Whitespace test matching Python `str.split` / `str.strip` (ASCII cases). -/
def isSpaceChar (c : Char) : Bool :=
  c.toNat = 32 || c.toNat = 9 || c.toNat = 10 || c.toNat = 13 ||
  c.toNat = 11 || c.toNat = 12

/-- Core of Python `str.split()` (split on whitespace runs, drop empties);
`acc` holds the current in-progress token, reversed. -/
def splitCore (acc : List Char) : List Char → List String
  | [] => if acc.isEmpty then [] else [String.mk acc.reverse]
  | c :: rest =>
    if isSpaceChar c then
      if acc.isEmpty then splitCore [] rest
      else String.mk acc.reverse :: splitCore [] rest
    else splitCore (c :: acc) rest

/-- Python `str.split()` with no arguments. -/
def pyWords (s : String) : List String := splitCore [] s.data

/-- Core of Python `str.split(sep)` for a single separator char (keeps
empty fields, as Python does). -/
def splitCharCore (sep : Char) (acc : List Char) : List Char → List String
  | [] => [String.mk acc.reverse]
  | c :: rest =>
    if c = sep then String.mk acc.reverse :: splitCharCore sep [] rest
    else splitCharCore sep (c :: acc) rest

/-- Python `str.split('\n')`. -/
def pyLines (s : String) : List String := splitCharCore (Char.ofNat 10) [] s.data

/-- Python `str.strip()`: remove leading and trailing whitespace. -/
def pyStrip (s : String) : String :=
  String.mk (((s.data.dropWhile isSpaceChar).reverse.dropWhile isSpaceChar).reverse)

/-- Python `str.startswith(p)`. -/
def isPrefixStr (p s : String) : Bool := p.data.isPrefixOf s.data

/-- Python slicing `s[n:]`. -/
def strDrop (n : Nat) (s : String) : String := String.mk (s.data.drop n)

/-- Python substring test `pat in s`. -/
def containsSub (pat : String) : List Char → Bool
  | [] => pat.data.isPrefixOf []
  | c :: rest => pat.data.isPrefixOf (c :: rest) || containsSub pat rest

/-- Decimal digits of `n`, most significant first, as written by an f-string;
the first argument is fuel (taking `fuel = n` gives the digits of `n`). -/
def decDigitsCore : Nat → Nat → List Char
  | 0, _ => []
  | _ + 1, 0 => []
  | fuel + 1, n + 1 =>
    decDigitsCore fuel ((n + 1) / 10) ++ [Char.ofNat (48 + (n + 1) % 10)]

/-- Decimal rendering of a natural number, Python `f"{n}"`. -/
def decRepr (n : Nat) : String :=
  if n = 0 then "0" else String.mk (decDigitsCore n n)

/-- Lower-case hex digit for a value below 16. -/
def hexChar (n : Nat) : Char :=
  if n < 10 then Char.ofNat (48 + n) else Char.ofNat (87 + n)

/-- Concatenation of the images of a function over a list (`b"".join`-like). -/
def catMap (f : α → List Nat) : List α → List Nat
  | [] => []
  | x :: rest => f x ++ catMap f rest

/-- Hex rendering of digest bytes, `hashlib...hexdigest()`. -/
def toHex (l : List Nat) : String :=
  String.mk (l.map (fun b => [hexChar (b / 16 % 16), hexChar (b % 16)])).flatten

/-- Value of one hex digit character. -/
def hexVal (c : Char) : Nat :=
  if c.toNat ≥ 97 then c.toNat - 87 else c.toNat - 48

/-- Python `bytes.fromhex`, reading pairs of hex digits. -/
def fromHexChars : List Char → List Nat
  | c1 :: c2 :: rest => (16 * hexVal c1 + hexVal c2) :: fromHexChars rest
  | _ => []

/-- Python `bytes.fromhex` on a string. -/
def fromHex (s : String) : List Nat := fromHexChars s.data

/-- Index of the first NUL byte, Python `bytes.index(b'\0')`
(`none` models the ValueError when no NUL is present). -/
def firstNul : List Nat → Option Nat
  | [] => none
  | b :: rest => if b = 0 then some 0 else (firstNul rest).map (· + 1)

/-- The object header `f"{obj_type} {len(data)}"` of src/main.py. -/
def header_str (objType : String) (data : List Nat) : String :=
  objType ++ " " ++ decRepr data.length

/-- The canonical object bytes `header + b'\0' + data` of src/main.py. -/
def full_data (objType : String) (data : List Nat) : List Nat :=
  strToBytes (header_str objType data) ++ 0 :: data

/-- The hex digest of an object, `hash_object` of src/main.py. -/
def hash_object (sha : List Nat → List Nat) (data : List Nat)
    (objType : String) : String :=
  toHex (sha (full_data objType data))

/-- The object store: digest (hex) to stored compressed bytes. The digest
determines the on-disk path bijectively. -/
abbrev ObjStore : Type := List (String × List Nat)

/-- Write a value for a key (a filesystem path holds one file, so any
previous value at the key is replaced). -/
def setA (k : String) (v : β) (st : List (String × β)) : List (String × β) :=
  (k, v) :: st.filter (fun e => e.1 ≠ k)

/-- Look up a key. -/
def lookupA (st : List (String × β)) (k : String) : Option β :=
  match st with
  | [] => none
  | (k1, v) :: rest => if k1 = k then some v else lookupA rest k

/-- Number of entries stored for a key. -/
def countKey (k : String) (st : List (String × β)) : Nat :=
  (st.filter (fun e => e.1 = k)).length

/-- Result of `write_object`: the returned digest, the store after the call,
and the file writes the call performed. -/
structure PutResult where
  digest : String
  store : ObjStore
  writes : List (String × List Nat)
deriving DecidableEq

/-- The `write_object` function of src/main.py: computes the digest,
compresses the canonical bytes and writes them at the digest path.  The
source opens the object file and writes unconditionally (no existence
check), which `writes` records. -/
def write_object (sha compress : List Nat → List Nat) (st : ObjStore)
    (data : List Nat) (objType : String) : PutResult :=
  let obj_hash := hash_object sha data objType
  let compressed := compress (full_data objType data)
  { digest := obj_hash
    store := setA obj_hash compressed st
    writes := [(obj_hash, compressed)] }

/-- The parsing part of `read_object` of src/main.py, applied to the
decompressed bytes: split at the first NUL, decode the header, split it
into type and declared size (`obj_type, size = header.split()`, which
requires exactly two fields), and return the type and the raw payload.
The declared size is bound but never compared with the payload. -/
def decodeObject (full : List Nat) : Option (String × List Nat) :=
  match firstNul full with
  | none => none
  | some i =>
    let header := bytesToStr (full.take i)
    let content := full.drop (i + 1)
    match pyWords header with
    | [objType, _size] => some (objType, content)
    | _ => none

/-- The `read_object` function of src/main.py: look the compressed bytes up
by digest, decompress, and parse. `none` models the raised exceptions
(missing file, no NUL, bad header). -/
def read_object (decompress : List Nat → List Nat) (st : ObjStore)
    (obj_hash : String) : Option (String × List Nat) :=
  match lookupA st obj_hash with
  | none => none
  | some compressed => decodeObject (decompress compressed)

/-! ### Tree builder -/

/-- A directory snapshot: the abstract filesystem `create_tree` walks.  A
directory holds its entries in on-disk enumeration order (`os.listdir`). -/
inductive FSEntry where
  | file : List Nat → FSEntry
  | dir : List (String × FSEntry) → FSEntry

/-- The mode string `create_tree` records for an entry. -/
def modeOf : FSEntry → String
  | FSEntry.file _ => "100644"
  | FSEntry.dir _ => "040000"

/-- An entry row as appended by `create_tree`: `(mode, item, obj_hash)`,
with the digest already in binary form (`bytes.fromhex`). -/
abbrev TEntry : Type := String × String × List Nat

/-- Comparison of entry rows by entry name (Python iterates
`sorted(os.listdir(directory))`, so rows end up sorted by name). -/
def entryLe (a b : TEntry) : Prop := a.2.1 ≤ b.2.1

instance : DecidableRel entryLe :=
  fun a b => inferInstanceAs (Decidable (a.2.1 ≤ b.2.1))

/-- Serialization of the entry rows of one tree, as built by `create_tree`:
`mode + b' ' + name + b'\0' + binary digest`, concatenated. -/
def serializeEntries (l : List TEntry) : List Nat :=
  catMap (fun e => strToBytes e.1 ++ 32 :: (strToBytes e.2.1 ++ 0 :: e.2.2)) l

mutual
/-- Digest semantics of `create_tree` of src/main.py: the digest an entry
gets, with the store writes dropped (the digest depends only on content).
Files hash as blobs; a directory hashes the serialization of its by-name
sorted entry rows as a tree. -/
def entry_hash (sha : List Nat → List Nat) : FSEntry → String
  | FSEntry.file data => hash_object sha data "blob"
  | FSEntry.dir items =>
    hash_object sha
      (serializeEntries (List.insertionSort entryLe (tree_entries sha items)))
      "tree"
  termination_by e => sizeOf e

/-- The `(mode, item, binary digest)` rows `create_tree` collects for one
directory, skipping the reserved `.mygit` name (the source skips it at
every level). -/
def tree_entries (sha : List Nat → List Nat) :
    List (String × FSEntry) → List TEntry
  | [] => []
  | (name, e) :: rest =>
    if name = ".mygit" then tree_entries sha rest
    else (modeOf e, name, fromHex (entry_hash sha e)) :: tree_entries sha rest
  termination_by l => sizeOf l
end

/-- The by-name sorted entry rows of one directory. -/
def sorted_entries (sha : List Nat → List Nat)
    (items : List (String × FSEntry)) : List TEntry :=
  List.insertionSort entryLe (tree_entries sha items)

/-- The serialized tree object content of one directory. -/
def tree_content (sha : List Nat → List Nat)
    (items : List (String × FSEntry)) : List Nat :=
  serializeEntries (sorted_entries sha items)

/-- Subtree of a snapshot at a path of child indices. -/
def subAt : FSEntry → List Nat → Option FSEntry
  | e, [] => some e
  | FSEntry.dir items, i :: rest =>
    match items.get? i with
    | some p => subAt p.2 rest
    | none => none
  | FSEntry.file _, _ :: _ => none
termination_by _e p => p.length

/-- Functional update of the file content at a path of child indices. -/
def updateAt : FSEntry → List Nat → List Nat → Option FSEntry
  | FSEntry.file _, [], nc => some (FSEntry.file nc)
  | FSEntry.dir items, i :: rest, nc =>
    match items.get? i with
    | some p =>
      match updateAt p.2 rest nc with
      | some c2 => some (FSEntry.dir (items.set i (p.1, c2)))
      | none => none
    | none => none
  | FSEntry.file _, _ :: _, _ => none
  | FSEntry.dir _, [], _ => none
termination_by _e p _ => p.length

/-- No entry name along the path is the reserved `.mygit` (which
`create_tree` skips, so such entries never reach any tree object). -/
def avoidsMygit : FSEntry → List Nat → Bool
  | _, [] => true
  | FSEntry.dir items, i :: rest =>
    match items.get? i with
    | some p => p.1 ≠ ".mygit" && avoidsMygit p.2 rest
    | none => true
  | FSEntry.file _, _ :: _ => true
termination_by _e p => p.length

/-- Well-formed snapshot: entry names are unique within each directory, as
`os.listdir` guarantees for a real filesystem. -/
inductive WFSnap : FSEntry → Prop where
  | file (c : List Nat) : WFSnap (FSEntry.file c)
  | dir (l : List (String × FSEntry)) : (l.map Prod.fst).Nodup →
      (∀ p ∈ l, WFSnap p.2) → WFSnap (FSEntry.dir l)

/-- Two snapshots with identical structure and identical file contents whose
directory listings may be enumerated in different on-disk orders. -/
inductive SnapEquiv : FSEntry → FSEntry → Prop where
  | file (c : List Nat) : SnapEquiv (FSEntry.file c) (FSEntry.file c)
  | nil : SnapEquiv (FSEntry.dir []) (FSEntry.dir [])
  | cons (n : String) (e1 e2 : FSEntry) (l1 l2 l2' : List (String × FSEntry)) :
      SnapEquiv e1 e2 → SnapEquiv (FSEntry.dir l1) (FSEntry.dir l2) →
      ((n, e2) :: l2).Perm l2' →
      SnapEquiv (FSEntry.dir ((n, e1) :: l1)) (FSEntry.dir l2')

mutual
/-- The store-writing `create_tree` of src/main.py on one directory
listing: collects the entry rows and threads the object store through the
blob/subtree writes.  (The source iterates names in sorted order; the rows
are sorted before serialization, so the serialized tree is the same, and
the store is a path-keyed map, so the write order does not affect it.) -/
def write_tree (sha compress : List Nat → List Nat) :
    List (String × FSEntry) → ObjStore → List TEntry × ObjStore
  | [], st => ([], st)
  | (name, e) :: rest, st =>
    if name = ".mygit" then write_tree sha compress rest st
    else
      let r := write_entry sha compress e st
      let r2 := write_tree sha compress rest r.2
      ((modeOf e, name, fromHex r.1) :: r2.1, r2.2)
  termination_by l _ => sizeOf l

/-- Writing one entry of `create_tree`: `hash_blob` for a file (read the
bytes, write a blob object), the recursive `create_tree` for a directory. -/
def write_entry (sha compress : List Nat → List Nat) :
    FSEntry → ObjStore → String × ObjStore
  | FSEntry.file data, st =>
    let r := write_object sha compress st data "blob"
    (r.digest, r.store)
  | FSEntry.dir items, st =>
    let r := write_tree sha compress items st
    let w := write_object sha compress r.2
      (serializeEntries (List.insertionSort entryLe r.1)) "tree"
    (w.digest, w.store)
  termination_by e _ => sizeOf e
end

/-- The `create_tree` call on the working directory: builds the root tree
object from the snapshot, returning its digest and the grown store. -/
def create_tree (sha compress : List Nat → List Nat)
    (snapshot : List (String × FSEntry)) (st : ObjStore) : String × ObjStore :=
  write_entry sha compress (FSEntry.dir snapshot) st

/-! ### Commits and references -/

/-- The default author of src/main.py. -/
def defaultAuthor : String := "User <user@example.com>"

/-- The author line `f"{author} {timestamp} {timezone}"` with the fixed
timezone "+0000" of src/main.py; the timestamp is `int(time.time())`,
passed in as a parameter here. -/
def author_line (author : String) (timestamp : Nat) : String :=
  author ++ " " ++ decRepr timestamp ++ " +0000"

/-- Python truthiness of the optional parent digest (`if parent_hash:`):
both `None` and the empty string are falsy. -/
def isTruthy : Option String → Bool
  | none => false
  | some s => s ≠ ""

/-- The commit text body built by `create_commit` of src/main.py. -/
def commit_content (tree_hash : String) (parent_hash : Option String)
    (message author : String) (timestamp : Nat) : String :=
  let al := author_line author timestamp
  "tree " ++ tree_hash ++ "\n" ++
    (if isTruthy parent_hash then "parent " ++ parent_hash.getD "" ++ "\n"
     else "") ++
    "author " ++ al ++ "\n" ++
    "committer " ++ al ++ "\n\n" ++ message ++ "\n"

/-- The `create_commit` function of src/main.py: build the text body and
store it as a commit object. -/
def create_commit (sha compress : List Nat → List Nat) (st : ObjStore)
    (tree_hash : String) (parent_hash : Option String)
    (message author : String) (timestamp : Nat) : String × ObjStore :=
  let r := write_object sha compress st
    (strToBytes (commit_content tree_hash parent_hash message author timestamp))
    "commit"
  (r.digest, r.store)

/-- Repository state: existence of the two layout directories, the HEAD
file content (`none` = file absent), the branch files under refs/heads,
and the object store. -/
structure RepoState where
  objectsDirExists : Bool
  refsDirExists : Bool
  head : Option String
  branches : List (String × String)
  store : ObjStore
deriving DecidableEq

/-- The `init_repo` function of src/main.py: `os.makedirs(..., exist_ok=True)`
for both layout directories — it never fails. -/
def init_repo (R : RepoState) : RepoState :=
  { R with objectsDirExists := true, refsDirExists := true }

/-- The `init` function of src/main.py: create the layout and write HEAD,
unconditionally. -/
def init (R : RepoState) : RepoState :=
  { init_repo R with head := some "ref: refs/heads/main" }

/-- The `get_current_branch` function of src/main.py: `None` when the HEAD
file is absent; otherwise strip the content, return `ref[16:]` when it
starts with `"ref: "`, else `None` (detached HEAD). -/
def get_current_branch (R : RepoState) : Option String :=
  match R.head with
  | none => none
  | some s =>
    let ref := pyStrip s
    if isPrefixStr "ref: " ref then some (strDrop 16 ref) else none

/-- The `get_current_commit` function of src/main.py: resolve HEAD to a
branch, then the branch file to the stripped digest it holds. -/
def get_current_commit (R : RepoState) : Option String :=
  match get_current_branch R with
  | none => none
  | some b =>
    match lookupA R.branches b with
    | none => none
    | some contents => some (pyStrip contents)

/-- The `update_branch` function of src/main.py: overwrite the branch file
with the digest. -/
def update_branch (R : RepoState) (branch commit_hash : String) : RepoState :=
  { R with branches := setA branch commit_hash R.branches }

/-- The `commit` function of src/main.py: build the tree from the working
snapshot, create the commit with the current commit as parent, and advance
the current branch (falling back to the name "main" when there is none). -/
def commitOp (sha compress : List Nat → List Nat)
    (snapshot : List (String × FSEntry)) (message : String) (timestamp : Nat)
    (R : RepoState) : String × RepoState :=
  let t := create_tree sha compress snapshot R.store
  let parent_hash := get_current_commit R
  let c := create_commit sha compress t.2 t.1 parent_hash message
    defaultAuthor timestamp
  let branch := (get_current_branch R).getD "main"
  (c.1, update_branch { R with store := c.2 } branch c.1)

/-- The `create_branch` function of src/main.py (with its default
`commit_hash=None` argument): point the new branch at the current commit,
or do nothing but print when there is none. -/
def create_branch (R : RepoState) (branch_name : String) : RepoState :=
  match get_current_commit R with
  | none => R
  | some commit_hash => update_branch R branch_name commit_hash

/-- The `checkout` function of src/main.py: if the branch file exists,
point HEAD at it; otherwise do nothing but print. -/
def checkout (R : RepoState) (branch_name : String) : RepoState :=
  match lookupA R.branches branch_name with
  | none => R
  | some _ =>
    { R with head := some ("ref: refs/heads/" ++ branch_name) }

/-! ### The log traversal -/

/-- Outcome of one iteration of the `log` loop of src/main.py. -/
inductive LogStep where
  | err : LogStep
  | halt : String → LogStep
  | next : String → LogStep
deriving DecidableEq

/-- One iteration of the `log` loop body: every line starting with
`"parent "` reassigns `commit_hash` to its second word (an exception if the
line has no second word); after the line loop, the loop breaks if and only
if the substring `"parent "` does not occur anywhere in the content. -/
def log_step (cur content : String) : LogStep :=
  let upd := (pyLines content).foldl
    (fun acc line =>
      match acc with
      | none => none
      | some h =>
        if isPrefixStr "parent " line then (pyWords line).get? 1 else some h)
    (some cur)
  match upd with
  | none => LogStep.err
  | some h =>
    if containsSub "parent " content.data then LogStep.next h
    else LogStep.halt h

/-- The `log` traversal of src/main.py with explicit fuel: the list of
visited commit digests, or `none` when an exception occurs or the fuel is
exhausted before the loop breaks. -/
def log_run (decompress : List Nat → List Nat) (st : ObjStore) :
    Nat → String → Option (List String)
  | 0, _ => none
  | fuel + 1, commit_hash =>
    match read_object decompress st commit_hash with
    | none => none
    | some tc =>
      match log_step commit_hash (bytesToStr tc.2) with
      | LogStep.err => none
      | LogStep.halt _ => some [commit_hash]
      | LogStep.next h2 =>
        (log_run decompress st fuel h2).map (commit_hash :: ·)

/-! ### A concrete injective digest function for witnesses -/

/-- Base-16 digits of `n`, most significant first, no leading zeros; the
first argument is fuel (taking `fuel = n` gives the digits of `n`). -/
def digits16Core : Nat → Nat → List Nat
  | 0, _ => []
  | _ + 1, 0 => []
  | fuel + 1, n + 1 => digits16Core fuel ((n + 1) / 16) ++ [(n + 1) % 16]

/-- Prefix-free encoding of one number: its base-16 digits, then a 16
marker. -/
def encB (n : Nat) : List Nat := digits16Core n n ++ [16]

/-- A concrete injective, executable stand-in digest function used to
instantiate the abstract hash parameter in witnesses and counterexamples
(not SHA-256, but injective, which is what the theorems consume). -/
def shaW (l : List Nat) : List Nat := catMap encB l

/-- Commit content of a parentless commit whose free-text message contains
the substring `"parent "`. -/
def logDemoContent : String :=
  commit_content "ab" none "my parent said hi" defaultAuthor 0

/-- A store holding that single commit under the digest key "c1" (stored
uncompressed; the matching decompression below is the identity). -/
def logDemoStore : ObjStore :=
  [("c1", full_data "commit" (strToBytes logDemoContent))]

/-- Modelled from the claim wording of C7 for comparison with the source:
the text body "tree <digest>\n", followed by "parent <digest>\n" if and
only if a parent is given, then "author <line>\n", "committer <line>\n", a
blank line, the message, and a final newline. -/
def claimCommitText (tree_digest : String) (parent : Option String)
    (line message : String) : String :=
  "tree " ++ tree_digest ++ "\n" ++
    (match parent with
     | some p => "parent " ++ p ++ "\n"
     | none => "") ++
    "author " ++ line ++ "\n" ++ "committer " ++ line ++ "\n" ++ "\n" ++
    message ++ "\n"

/-- A repository state whose layout already exists (HEAD on a branch named
dev), used to exercise `init` on an already-initialized repository. -/
def alreadyInitState : RepoState :=
  { objectsDirExists := true
    refsDirExists := true
    head := some "ref: refs/heads/dev"
    branches := [("dev", "abc")]
    store := [] }

/-- Strict by-name comparison of entry rows. -/
def entryLt (a b : TEntry) : Prop := a.2.1 < b.2.1

instance : DecidableRel entryLt :=
  fun a b => inferInstanceAs (Decidable (a.2.1 < b.2.1))

instance : IsTotal TEntry entryLe := ⟨fun a b => le_total a.2.1 b.2.1⟩

instance : IsTrans TEntry entryLe := ⟨fun _ _ _ h1 h2 => le_trans h1 h2⟩

instance : IsAntisymm TEntry entryLt :=
  ⟨fun _ _ h1 h2 => absurd h1 (lt_asymm h2)⟩

/-- A two-file snapshot, listed in one on-disk order. -/
def snapA : FSEntry :=
  FSEntry.dir [("b", FSEntry.file [1]), ("a", FSEntry.file [2])]

/-- The same snapshot, listed in the other on-disk order. -/
def snapB : FSEntry :=
  FSEntry.dir [("a", FSEntry.file [2]), ("b", FSEntry.file [1])]

/-- Base-16 value of a digit list, most significant first. -/
def val16 (l : List Nat) : Nat := l.foldl (fun a d => 16 * a + d) 0

/-- A snapshot holding one file inside a nested directory named `.mygit`. -/
def mygitSnapA : FSEntry :=
  FSEntry.dir [("sub", FSEntry.dir [(".mygit", FSEntry.file [1])])]

/-- The same snapshot with that file's content changed. -/
def mygitSnapB : FSEntry :=
  FSEntry.dir [("sub", FSEntry.dir [(".mygit", FSEntry.file [2])])]

/-- A two-entry snapshot with a nested directory, for the Merkle witness. -/
def merkleW : FSEntry :=
  FSEntry.dir [("a", FSEntry.file [10]),
    ("s", FSEntry.dir [("b", FSEntry.file [20])])]

/-- The same snapshot after changing a byte of the nested file. -/
def merkleW2 : FSEntry :=
  FSEntry.dir [("a", FSEntry.file [10]),
    ("s", FSEntry.dir [("b", FSEntry.file [21])])]

/-! ### Basic lemmas about the byte/string utilities -/

theorem charToNat_ofNat {n : Nat} (h : n < 55296) : (Char.ofNat n).toNat = n := by
  have hv : n.isValidChar := Or.inl h
  unfold Char.ofNat
  rw [dif_pos hv]
  rfl

theorem bytesToStr_strToBytes (s : String) : bytesToStr (strToBytes s) = s := by
  unfold bytesToStr strToBytes
  rw [List.map_map]
  have : (Char.ofNat ∘ Char.toNat) = id := by
    funext c
    exact Char.ofNat_toNat c
  rw [this, List.map_id]

theorem strToBytes_append (s t : String) :
    strToBytes (s ++ t) = strToBytes s ++ strToBytes t := by
  unfold strToBytes
  rw [String.data_append, List.map_append]

theorem strToBytes_inj {s t : String} (h : strToBytes s = strToBytes t) : s = t := by
  have h2 := congrArg bytesToStr h
  rwa [bytesToStr_strToBytes, bytesToStr_strToBytes] at h2

theorem decDigitsCore_mem {fuel n : Nat} {c : Char}
    (h : c ∈ decDigitsCore fuel n) : 48 ≤ c.toNat ∧ c.toNat ≤ 57 := by
  induction fuel generalizing n with
  | zero => simp [decDigitsCore] at h
  | succ f ih =>
    cases n with
    | zero => simp [decDigitsCore] at h
    | succ m =>
      rw [decDigitsCore, List.mem_append] at h
      rcases h with h | h
      · exact ih h
      · have hc : c = Char.ofNat (48 + (m + 1) % 10) := by simpa using h
        have hlt : (m + 1) % 10 < 10 := Nat.mod_lt _ (by omega)
        have : (Char.ofNat (48 + (m + 1) % 10)).toNat = 48 + (m + 1) % 10 :=
          charToNat_ofNat (by omega)
        subst hc
        omega

theorem decRepr_mem {n : Nat} {c : Char} (h : c ∈ (decRepr n).data) :
    48 ≤ c.toNat ∧ c.toNat ≤ 57 := by
  unfold decRepr at h
  by_cases h0 : n = 0
  · rw [if_pos h0] at h
    have : c = Char.ofNat 48 := by
      simpa [String.data] using h
    subst this
    rw [charToNat_ofNat (by omega)]
    omega
  · rw [if_neg h0] at h
    exact decDigitsCore_mem h

theorem decDigitsCore_ne_nil {n : Nat} (h : 0 < n) :
    decDigitsCore n n ≠ [] := by
  cases n with
  | zero => omega
  | succ m =>
    rw [decDigitsCore]
    simp

theorem decRepr_ne_nil (n : Nat) : (decRepr n).data ≠ [] := by
  unfold decRepr
  by_cases h0 : n = 0
  · rw [if_pos h0]
    simp [String.data]
  · rw [if_neg h0]
    simpa using decDigitsCore_ne_nil (Nat.pos_of_ne_zero h0)

theorem digit_not_space {c : Char} (h : 48 ≤ c.toNat ∧ c.toNat ≤ 57) :
    isSpaceChar c = false := by
  unfold isSpaceChar
  simp only [Bool.or_eq_false_iff, decide_eq_false_iff_not]
  omega

theorem firstNul_append {h : List Nat} (t : List Nat)
    (hh : ∀ b ∈ h, b ≠ 0) : firstNul (h ++ 0 :: t) = some h.length := by
  induction h with
  | nil => simp [firstNul]
  | cons b rest ih =>
    have hb : b ≠ 0 := hh b (by simp)
    rw [List.cons_append, firstNul, if_neg hb,
      ih (fun x hx => hh x (by simp [hx]))]
    rfl

theorem firstNul_none {l : List Nat} (h : ∀ b ∈ l, b ≠ 0) :
    firstNul l = none := by
  induction l with
  | nil => rfl
  | cons b rest ih =>
    rw [firstNul, if_neg (h b (by simp)),
      ih (fun x hx => h x (by simp [hx]))]
    rfl

theorem splitCore_append_space {a : List Char} (acc b : List Char)
    (hns : ∀ c ∈ a, isSpaceChar c = false) (hne : acc ≠ [] ∨ a ≠ []) :
    splitCore acc (a ++ (Char.ofNat 32) :: b) =
      String.mk (acc.reverse ++ a) :: splitCore [] b := by
  induction a generalizing acc with
  | nil =>
    have hsp : isSpaceChar (Char.ofNat 32) = true := by decide
    have hacc : acc ≠ [] := by
      rcases hne with h | h
      · exact h
      · exact absurd rfl h
    rw [List.nil_append, splitCore, hsp]
    simp [List.isEmpty_iff, hacc]
  | cons c a2 ih =>
    have hc : isSpaceChar c = false := hns c (by simp)
    rw [List.cons_append, splitCore, hc]
    simp only [Bool.false_eq_true, if_false]
    rw [ih (c :: acc) (fun x hx => hns x (by simp [hx])) (Or.inl (by simp))]
    simp

theorem splitCore_no_space {a : List Char} (acc : List Char)
    (hns : ∀ c ∈ a, isSpaceChar c = false) (hne : acc ≠ [] ∨ a ≠ []) :
    splitCore acc a = [String.mk (acc.reverse ++ a)] := by
  induction a generalizing acc with
  | nil =>
    have hacc : acc ≠ [] := by
      rcases hne with h | h
      · exact h
      · exact absurd rfl h
    rw [splitCore]
    simp [List.isEmpty_iff, hacc]
  | cons c a2 ih =>
    have hc : isSpaceChar c = false := hns c (by simp)
    rw [splitCore, hc]
    simp only [Bool.false_eq_true, if_false]
    rw [ih (c :: acc) (fun x hx => hns x (by simp [hx])) (Or.inl (by simp))]
    simp

theorem pyWords_two {t d : String} (ht1 : t.data ≠ [])
    (ht2 : ∀ c ∈ t.data, isSpaceChar c = false) (hd1 : d.data ≠ [])
    (hd2 : ∀ c ∈ d.data, isSpaceChar c = false) :
    pyWords (t ++ " " ++ d) = [t, d] := by
  unfold pyWords
  have hdata : (t ++ " " ++ d).data = t.data ++ (Char.ofNat 32) :: d.data := by
    have hsp : (" " : String).data = [Char.ofNat 32] := by decide
    rw [String.data_append, String.data_append, hsp, List.append_assoc]
    rfl
  rw [hdata, splitCore_append_space [] d.data ht2 (Or.inr ht1),
    splitCore_no_space [] hd2 (Or.inr hd1)]
  simp

/-! ### Lemmas about the associative store -/

theorem lookupA_setA_eq {v : β} (st : List (String × β)) (k : String) :
    lookupA (setA k v st) k = some v := by
  simp [setA, lookupA]

theorem lookupA_filter_ne {st : List (String × β)} {k k1 : String}
    (h : k1 ≠ k) :
    lookupA (st.filter (fun e => e.1 ≠ k)) k1 = lookupA st k1 := by
  induction st with
  | nil => rfl
  | cons e rest ih =>
    by_cases he : e.1 = k
    · have : ¬ (e.1 ≠ k) := by simpa using he
      rw [List.filter_cons_of_neg (by simpa using this)]
      rw [ih]
      have : e.1 ≠ k1 := by rw [he]; exact fun hh => h hh.symm
      cases e with
      | mk k2 v2 =>
        simp only [lookupA]
        rw [if_neg this]
    · rw [List.filter_cons_of_pos (by simpa using he)]
      cases e with
      | mk k2 v2 =>
        simp only [lookupA]
        by_cases h2 : k2 = k1
        · rw [if_pos h2, if_pos h2]
        · rw [if_neg h2, if_neg h2, ih]

theorem lookupA_setA_ne {v : β} {st : List (String × β)} {k k1 : String}
    (h : k1 ≠ k) : lookupA (setA k v st) k1 = lookupA st k1 := by
  unfold setA
  simp only [lookupA]
  rw [if_neg (fun hh => h hh.symm), lookupA_filter_ne h]

theorem setA_setA {v w : β} (st : List (String × β)) (k : String) :
    setA k v (setA k w st) = setA k v st := by
  unfold setA
  simp [List.filter_filter]

theorem countKey_setA {v : β} (st : List (String × β)) (k : String) :
    countKey k (setA k v st) = 1 := by
  unfold countKey setA
  rw [List.filter_cons_of_pos (by simp)]
  have : (st.filter (fun e => e.1 ≠ k)).filter (fun e => e.1 = k) = [] := by
    rw [List.filter_filter]
    apply List.filter_eq_nil_iff.mpr
    intro e he
    simp only [decide_eq_true_eq, Bool.and_eq_true, decide_eq_true_iff, ne_eq]
    tauto
  rw [this]
  rfl

/-! ### Decoding the canonical object bytes -/

theorem header_char_conditions {t : String} (n : Nat)
    (ht : ∀ c ∈ t.data, isSpaceChar c = false ∧ c.toNat ≠ 0) :
    ∀ c ∈ (t ++ " " ++ decRepr n).data,
      c.toNat ≠ 0 ∧ (c.toNat = 32 ∨ isSpaceChar c = false) := by
  intro c hc
  rw [String.data_append, String.data_append] at hc
  rcases List.mem_append.mp hc with hc1 | hc2
  · rcases List.mem_append.mp hc1 with hct | hcs
    · rcases ht c hct with ⟨hs, hz⟩
      exact ⟨hz, Or.inr hs⟩
    · have : c = Char.ofNat 32 := by
        have hsp : (" " : String).data = [Char.ofNat 32] := by decide
        rw [hsp] at hcs
        simpa using hcs
      subst this
      refine ⟨by decide, Or.inl (by decide)⟩
  · have := decRepr_mem hc2
    refine ⟨by omega, Or.inr (digit_not_space this)⟩

theorem decode_header_payload {t : String} (ht1 : t.data ≠ [])
    (ht2 : ∀ c ∈ t.data, isSpaceChar c = false ∧ c.toNat ≠ 0)
    (n : Nat) (p : List Nat) :
    decodeObject (strToBytes (t ++ " " ++ decRepr n) ++ 0 :: p) =
      some (t, p) := by
  have hchars := header_char_conditions n ht2
  have hnz : ∀ b ∈ strToBytes (t ++ " " ++ decRepr n), b ≠ 0 := by
    intro b hb
    rcases List.mem_map.mp hb with ⟨c, hc, rfl⟩
    exact (hchars c hc).1
  have hfn : firstNul (strToBytes (t ++ " " ++ decRepr n) ++ 0 :: p) =
      some (strToBytes (t ++ " " ++ decRepr n)).length :=
    firstNul_append p hnz
  have htake : (strToBytes (t ++ " " ++ decRepr n) ++ 0 :: p).take
      (strToBytes (t ++ " " ++ decRepr n)).length =
      strToBytes (t ++ " " ++ decRepr n) := List.take_left _ _
  have hdrop : (strToBytes (t ++ " " ++ decRepr n) ++ 0 :: p).drop
      ((strToBytes (t ++ " " ++ decRepr n)).length + 1) = p := by
    have h2 : strToBytes (t ++ " " ++ decRepr n) ++ 0 :: p =
        (strToBytes (t ++ " " ++ decRepr n) ++ [0]) ++ p := by
      simp
    rw [h2]
    have hlen : (strToBytes (t ++ " " ++ decRepr n) ++ [0]).length =
        (strToBytes (t ++ " " ++ decRepr n)).length + 1 := by
      simp
    rw [← hlen, List.drop_left]
  have hw : pyWords (t ++ " " ++ decRepr n) = [t, decRepr n] := by
    apply pyWords_two ht1 (fun c hc => (ht2 c hc).1) (decRepr_ne_nil n)
    intro c hc
    exact digit_not_space (decRepr_mem hc)
  unfold decodeObject
  rw [hfn]
  simp only [htake, hdrop, bytesToStr_strToBytes, hw]

theorem type_conditions {t : String}
    (ht : t = "blob" ∨ t = "tree" ∨ t = "commit") :
    t.data ≠ [] ∧ ∀ c ∈ t.data, isSpaceChar c = false ∧ c.toNat ≠ 0 := by
  rcases ht with rfl | rfl | rfl
  · exact ⟨by decide, by decide⟩
  · exact ⟨by decide, by decide⟩
  · exact ⟨by decide, by decide⟩

theorem decode_full_data {t : String}
    (ht : t = "blob" ∨ t = "tree" ∨ t = "commit") (p : List Nat) :
    decodeObject (full_data t p) = some (t, p) := by
  rcases type_conditions ht with ⟨h1, h2⟩
  exact decode_header_payload h1 h2 p.length p

/-! ### Claim C1: write/read round-trip -/

/-- C1: for every object type `t` in {blob, tree, commit} and every byte
payload `p`, writing the object with `write_object` and reading it back by
the returned digest with `read_object` yields exactly `(t, p)`, assuming
only that decompression inverts compression (as zlib does). -/
theorem C1_round_trip (sha compress decompress : List Nat → List Nat)
    (hz : ∀ x, decompress (compress x) = x) (t : String)
    (ht : t = "blob" ∨ t = "tree" ∨ t = "commit") (p : List Nat)
    (st : ObjStore) :
    read_object decompress (write_object sha compress st p t).store
      (write_object sha compress st p t).digest = some (t, p) := by
  have h1 : lookupA (write_object sha compress st p t).store
      (write_object sha compress st p t).digest =
      some (compress (full_data t p)) := lookupA_setA_eq _ _
  unfold read_object
  rw [h1]
  show decodeObject (decompress (compress (full_data t p))) = some (t, p)
  rw [hz]
  exact decode_full_data ht p

/-- Witness for C1 at a concrete input. -/
theorem C1_round_trip_witness :
    read_object id (write_object shaW id [] [7] "blob").store
      (write_object shaW id [] [7] "blob").digest = some ("blob", [7]) :=
  C1_round_trip shaW id id (fun _ => rfl) "blob" (Or.inl rfl) [7] []

/-! ### Claim C2: content-addressed idempotent put -/

/-- C2 (amended): calling `write_object` twice with the same `(t, p)`
returns the same digest both times, the second call leaves the store
exactly as after the first, and the store holds exactly one object for
that digest; however the second write is NOT skipped — the source rewrites
the object file (with identical bytes) even though the object already
exists. -/
theorem C2_put_idempotent (sha compress : List Nat → List Nat)
    (st : ObjStore) (p : List Nat) (t : String) :
    (write_object sha compress (write_object sha compress st p t).store p t).digest =
        (write_object sha compress st p t).digest ∧
      (write_object sha compress (write_object sha compress st p t).store p t).store =
        (write_object sha compress st p t).store ∧
      countKey (write_object sha compress st p t).digest
        (write_object sha compress st p t).store = 1 ∧
      (write_object sha compress (write_object sha compress st p t).store p t).writes =
        (write_object sha compress st p t).writes ∧
      (write_object sha compress (write_object sha compress st p t).store p t).writes ≠ [] := by
  refine ⟨rfl, ?_, ?_, rfl, by simp [write_object]⟩
  · unfold write_object
    simp only
    rw [setA_setA]
  · unfold write_object
    simp only
    rw [countKey_setA]

/-- Counterexample to C2 as stated: after a first put, the object exists in
the store, yet the second identical put still performs a file write (the
source has no existence check), so the write is not skipped. -/
theorem C2_not_skipped_cex :
    (lookupA (write_object shaW id [] [] "blob").store
        (write_object shaW id [] [] "blob").digest).isSome = true ∧
      (write_object shaW id (write_object shaW id [] [] "blob").store []
          "blob").writes ≠ [] := by
  constructor
  · decide
  · decide

/-! ### Claim C4: decode error conditions -/

/-- C4 (amended): decoding fails when the data contains no NUL separator;
but the length declared in the header is never compared with the actual
payload — for any declared length `n`, matching or not, the declared type
and the payload bytes are returned. -/
theorem C4_decode_conditions :
    (∀ full : List Nat, (∀ b ∈ full, b ≠ 0) → decodeObject full = none) ∧
      ∀ (t : String), (t = "blob" ∨ t = "tree" ∨ t = "commit") →
        ∀ (n : Nat) (p : List Nat),
          decodeObject (strToBytes (t ++ " " ++ decRepr n) ++ 0 :: p) =
            some (t, p) := by
  constructor
  · intro full h
    unfold decodeObject
    rw [firstNul_none h]
  · intro t ht n p
    rcases type_conditions ht with ⟨h1, h2⟩
    exact decode_header_payload h1 h2 n p

/-- Witness for C4 at concrete inputs: data without NUL fails; a header
declaring length 5 over a 1-byte payload decodes successfully. -/
theorem C4_decode_conditions_witness :
    decodeObject [1, 2, 3] = none ∧
      decodeObject (strToBytes ("blob" ++ " " ++ decRepr 5) ++ 0 :: [97]) =
        some ("blob", [97]) :=
  ⟨C4_decode_conditions.1 [1, 2, 3] (by decide),
    C4_decode_conditions.2 "blob" (Or.inl rfl) 5 [97]⟩

/-- Counterexample to C4 as stated: a declared length of 5 over the 2-byte
payload "ab" is accepted — `read_object` never checks the declared length,
so no error is raised on the mismatch. -/
theorem C4_length_unchecked_cex :
    decodeObject (strToBytes "blob 5" ++ 0 :: strToBytes "ab") =
        some ("blob", strToBytes "ab") ∧
      (5 : Nat) ≠ (strToBytes "ab").length := by
  constructor
  · decide
  · decide

/-! ### Claim C7: commit serialization format -/

theorem string_data_ext {a b : String} (h : a.data = b.data) : a = b :=
  congrArg String.mk h

/-- C7: for every tree digest, optional (nonempty) parent digest, message
and author line, `create_commit` serializes exactly the text body the spec
describes — "tree <digest>\n", "parent <digest>\n" iff a parent is given,
"author <line>\n", "committer <line>\n", a blank line, the message and a
final newline — and stores it as a commit object. -/
theorem C7_commit_format (sha compress : List Nat → List Nat)
    (st : ObjStore) (tree_hash : String) (parent_hash : Option String)
    (message author : String) (timestamp : Nat)
    (hp : parent_hash = none ∨ ∃ p, parent_hash = some p ∧ p ≠ "") :
    commit_content tree_hash parent_hash message author timestamp =
        claimCommitText tree_hash parent_hash (author_line author timestamp)
          message ∧
      create_commit sha compress st tree_hash parent_hash message author
          timestamp =
        ((write_object sha compress st
            (strToBytes (claimCommitText tree_hash parent_hash
              (author_line author timestamp) message)) "commit").digest,
          (write_object sha compress st
            (strToBytes (claimCommitText tree_hash parent_hash
              (author_line author timestamp) message)) "commit").store) := by
  have hbody : commit_content tree_hash parent_hash message author timestamp =
      claimCommitText tree_hash parent_hash (author_line author timestamp)
        message := by
    rcases hp with rfl | ⟨p, rfl, hpne⟩
    · apply string_data_ext
      simp [commit_content, claimCommitText, isTruthy, String.data_append]
    · have ht : isTruthy (some p) = true := by
        simp [isTruthy, hpne]
      apply string_data_ext
      simp [commit_content, claimCommitText, ht, String.data_append]
  refine ⟨hbody, ?_⟩
  unfold create_commit
  rw [hbody]

/-- Witness for C7 at a concrete input, with a parent given. -/
theorem C7_commit_format_witness :
    commit_content "tt" (some "aa") "msg" "A" 5 =
      claimCommitText "tt" (some "aa") (author_line "A" 5) "msg" :=
  (C7_commit_format shaW id [] "tt" (some "aa") "msg" "A" 5
    (Or.inr ⟨"aa", rfl, by decide⟩)).1

/-! ### Claim C9: init on an existing layout -/

/-- C9 (amended): `init` never fails: the layout directories are created
with exist-ok semantics and HEAD is unconditionally overwritten to point at
main, whatever the prior state was; branches and objects are untouched. -/
theorem C9_init_overwrites (R : RepoState) :
    (init R).objectsDirExists = true ∧ (init R).refsDirExists = true ∧
      (init R).head = some "ref: refs/heads/main" ∧
      (init R).branches = R.branches ∧ (init R).store = R.store :=
  ⟨rfl, rfl, rfl, rfl, rfl⟩

/-- Counterexample to C9 as stated: on a state whose layout already exists,
`init` does not fail with AlreadyInitialized — it returns normally and
silently overwrites HEAD. -/
theorem C9_no_failure_cex :
    init alreadyInitState =
        { alreadyInitState with head := some "ref: refs/heads/main" } ∧
      (init alreadyInitState).head ≠ alreadyInitState.head := by
  constructor
  · decide
  · decide

/-! ### Claim C10: commit with absent or detached HEAD -/

/-- C10: when the HEAD file is absent, or HEAD holds a bare digest rather
than a "ref: refs/heads/<branch>" line, `commit` still succeeds and writes
the new commit digest to the branch named main (creating or overwriting
refs/heads/main), leaving HEAD itself unchanged. -/
theorem C10_detached_commit_to_main (sha compress : List Nat → List Nat)
    (snapshot : List (String × FSEntry)) (message : String) (timestamp : Nat)
    (R : RepoState)
    (h : R.head = none ∨
      ∃ s, R.head = some s ∧ isPrefixStr "ref: " (pyStrip s) = false) :
    (commitOp sha compress snapshot message timestamp R).2.branches =
        setA "main" (commitOp sha compress snapshot message timestamp R).1
          R.branches ∧
      (commitOp sha compress snapshot message timestamp R).2.head = R.head := by
  have hb : get_current_branch R = none := by
    unfold get_current_branch
    rcases h with h | ⟨s, hs, hp⟩
    · rw [h]
    · rw [hs]
      simp [hp]
  constructor
  · unfold commitOp update_branch
    simp only [hb, Option.getD_none]
  · unfold commitOp update_branch
    simp only [hb, Option.getD_none]

/-- Witness for C10 at a concrete detached-HEAD state. -/
theorem C10_detached_commit_to_main_witness :
    (commitOp shaW id [] "m" 0
        (RepoState.mk true true (some "deadbeef") [] [])).2.branches =
      setA "main"
        (commitOp shaW id [] "m" 0
          (RepoState.mk true true (some "deadbeef") [] [])).1 [] ∧
    (commitOp shaW id [] "m" 0
        (RepoState.mk true true (some "deadbeef") [] [])).2.head =
      some "deadbeef" :=
  C10_detached_commit_to_main shaW id [] "m" 0
    (RepoState.mk true true (some "deadbeef") [] [])
    (Or.inr ⟨"deadbeef", rfl, by decide⟩)

/-! ### Claim C8: branch-fork framing -/

theorem get_current_branch_eq {R : RepoState} {s : String}
    (h : R.head = some s) :
    get_current_branch R =
      if isPrefixStr "ref: " (pyStrip s) then some (strDrop 16 (pyStrip s))
      else none := by
  unfold get_current_branch
  rw [h]

theorem commitOp_state (sha compress : List Nat → List Nat)
    (snapshot : List (String × FSEntry)) (message : String) (timestamp : Nat)
    (R : RepoState) {b : String} (hb : get_current_branch R = some b) :
    (commitOp sha compress snapshot message timestamp R).2.branches =
        setA b (commitOp sha compress snapshot message timestamp R).1
          R.branches ∧
      (commitOp sha compress snapshot message timestamp R).2.head = R.head := by
  constructor
  · unfold commitOp update_branch
    simp only [hb, Option.getD_some]
  · unfold commitOp update_branch
    simp only [hb, Option.getD_some]

/-- C8: starting from a freshly initialized repository, after two commits
on main, `create_branch "feature"`, `checkout "feature"`, and a third
commit, the third commit updates only the feature pointer: the branch map
is the previous one with just "feature" rebound, HEAD is unchanged by the
commit, main still resolves to the second commit's digest, and feature
resolves to the third. -/
theorem C8_branch_fork (sha compress : List Nat → List Nat)
    (s1 s2 s3 : List (String × FSEntry)) (m1 m2 m3 : String)
    (t1 t2 t3 : Nat) (R0 R1 R2 R4 R5 : RepoState) (c2 c3 : String)
    (hR1 : R1 = (commitOp sha compress s1 m1 t1 (init R0)).2)
    (h2 : commitOp sha compress s2 m2 t2 R1 = (c2, R2))
    (hR4 : R4 = checkout (create_branch R2 "feature") "feature")
    (h3 : commitOp sha compress s3 m3 t3 R4 = (c3, R5)) :
    lookupA R5.branches "main" = some c2 ∧
      R5.branches = setA "feature" c3 R4.branches ∧
      R5.head = R4.head ∧
      lookupA R5.branches "feature" = some c3 := by
  -- the initialized state is on branch main
  have hb0 : get_current_branch (init R0) = some "main" := rfl
  -- first commit: head preserved, main advanced
  have hs1 := commitOp_state sha compress s1 m1 t1 (init R0) hb0
  have hH1 : R1.head = some "ref: refs/heads/main" := by
    rw [hR1, hs1.2]
    rfl
  have hb1 : get_current_branch R1 = some "main" := by
    rw [get_current_branch_eq hH1]
    decide
  -- second commit
  have hs2 := commitOp_state sha compress s2 m2 t2 R1 hb1
  have hc2 : c2 = (commitOp sha compress s2 m2 t2 R1).1 := by rw [h2]
  have hR2 : R2 = (commitOp sha compress s2 m2 t2 R1).2 := by rw [h2]
  have hH2 : R2.head = some "ref: refs/heads/main" := by
    rw [hR2, hs2.2, hH1]
  have hB2 : R2.branches = setA "main" c2 R1.branches := by
    rw [hR2, hs2.1, ← hc2]
  have hb2 : get_current_branch R2 = some "main" := by
    rw [get_current_branch_eq hH2]
    decide
  -- create_branch "feature" copies the current commit (main's value)
  have hgc2 : get_current_commit R2 = some (pyStrip c2) := by
    unfold get_current_commit
    rw [hb2]
    simp only [hB2, lookupA_setA_eq]
  have hR3 : create_branch R2 "feature" =
      update_branch R2 "feature" (pyStrip c2) := by
    unfold create_branch
    rw [hgc2]
  -- checkout "feature" only rewrites HEAD
  have hlf : lookupA (update_branch R2 "feature" (pyStrip c2)).branches
      "feature" = some (pyStrip c2) := by
    unfold update_branch
    exact lookupA_setA_eq _ _
  have hR4e : R4 = { update_branch R2 "feature" (pyStrip c2) with
      head := some "ref: refs/heads/feature" } := by
    rw [hR4, hR3]
    unfold checkout
    rw [hlf]
    rfl
  have hH4 : R4.head = some "ref: refs/heads/feature" := by
    rw [hR4e]
  have hB4 : R4.branches = setA "feature" (pyStrip c2) R2.branches := by
    rw [hR4e]
    rfl
  have hb4 : get_current_branch R4 = some "feature" := by
    rw [get_current_branch_eq hH4]
    decide
  -- third commit advances only feature
  have hs3 := commitOp_state sha compress s3 m3 t3 R4 hb4
  have hc3 : c3 = (commitOp sha compress s3 m3 t3 R4).1 := by rw [h3]
  have hR5 : R5 = (commitOp sha compress s3 m3 t3 R4).2 := by rw [h3]
  have hB5 : R5.branches = setA "feature" c3 R4.branches := by
    rw [hR5, hs3.1, ← hc3]
  refine ⟨?_, hB5, ?_, ?_⟩
  · rw [hB5, lookupA_setA_ne (by decide), hB4,
      lookupA_setA_ne (by decide), hB2, lookupA_setA_eq]
  · rw [hR5, hs3.2]
  · rw [hB5, lookupA_setA_eq]

/-- Witness for C8 at concrete inputs (empty snapshots, fixed messages). -/
theorem C8_branch_fork_witness :
    lookupA (commitOp shaW id [] "c" 2
        (checkout
          (create_branch
            (commitOp shaW id [] "b" 1
              (commitOp shaW id [] "a" 0
                (init (RepoState.mk false false none [] []))).2).2
            "feature")
          "feature")).2.branches "main" =
      some (commitOp shaW id [] "b" 1
        (commitOp shaW id [] "a" 0
          (init (RepoState.mk false false none [] []))).2).1 :=
  (C8_branch_fork shaW id [] [] [] "a" "b" "c" 0 1 2
    (RepoState.mk false false none [] []) _ _ _ _ _ _ rfl rfl rfl rfl).1

/-! ### Claim C3: history traversal -/

/-- C3 (code bug): on a store whose current commit is a well-formed
parentless commit whose message merely contains the substring "parent "
(here: "my parent said hi"), the log loop of src/main.py never terminates:
the break condition is a substring test on the whole content while the
next hash only changes on lines starting with "parent ", so every
iteration revisits the same commit.  With any amount of fuel, the
traversal fails to finish. -/
theorem C3_log_nontermination (fuel : Nat) :
    log_run (fun x => x) logDemoStore fuel "c1" = none := by
  induction fuel with
  | zero => rfl
  | succ n ih =>
    have hstep : log_run (fun x => x) logDemoStore (n + 1) "c1" =
        (log_run (fun x => x) logDemoStore n "c1").map ("c1" :: ·) := rfl
    rw [hstep, ih]
    rfl

/-! ### Claim C5: tree determinism -/

theorem tree_entries_eq_filterMap (sha : List Nat → List Nat)
    (l : List (String × FSEntry)) :
    tree_entries sha l = l.filterMap (fun p =>
      if p.1 = ".mygit" then none
      else some (modeOf p.2, p.1, fromHex (entry_hash sha p.2))) := by
  induction l with
  | nil => simp [tree_entries]
  | cons p rest ih =>
    cases p with
    | mk name e =>
      by_cases h : name = ".mygit"
      · simp [tree_entries, h, ih]
      · simp [tree_entries, h, ih]

theorem tree_entries_keys_sublist (sha : List Nat → List Nat)
    (l : List (String × FSEntry)) :
    ((tree_entries sha l).map (fun e => e.2.1)).Sublist (l.map Prod.fst) := by
  induction l with
  | nil => simp [tree_entries]
  | cons p rest ih =>
    cases p with
    | mk name e =>
      by_cases h : name = ".mygit"
      · rw [tree_entries, if_pos h]
        exact ih.cons name
      · rw [tree_entries, if_neg h]
        exact ih.cons₂ name

theorem entry_hash_dir_eq (sha : List Nat → List Nat)
    (items : List (String × FSEntry)) :
    entry_hash sha (FSEntry.dir items) =
      hash_object sha (tree_content sha items) "tree" := by
  simp [entry_hash, tree_content, sorted_entries]

theorem insertionSort_eq_of_perm {m1 m2 : List TEntry} (hp : m1.Perm m2)
    (hnd : (m1.map (fun e => e.2.1)).Nodup) :
    List.insertionSort entryLe m1 = List.insertionSort entryLe m2 := by
  have hs1 : List.Sorted entryLe (List.insertionSort entryLe m1) :=
    List.sorted_insertionSort entryLe m1
  have hs2 : List.Sorted entryLe (List.insertionSort entryLe m2) :=
    List.sorted_insertionSort entryLe m2
  have hp1 : (List.insertionSort entryLe m1).Perm m1 :=
    List.perm_insertionSort entryLe m1
  have hp2 : (List.insertionSort entryLe m2).Perm m2 :=
    List.perm_insertionSort entryLe m2
  have hperm : (List.insertionSort entryLe m1).Perm
      (List.insertionSort entryLe m2) :=
    hp1.trans (hp.trans hp2.symm)
  have key_nodup : ∀ (s : List TEntry), s.Perm m1 →
      s.Pairwise (fun a b => a.2.1 ≠ b.2.1) := by
    intro s hs
    have : ((s.map (fun e => e.2.1)).Nodup) :=
      ((hs.map (fun e => e.2.1)).nodup_iff).mpr hnd
    unfold List.Nodup at this
    rw [List.pairwise_map] at this
    exact this
  have hstrict1 : List.Pairwise entryLt (List.insertionSort entryLe m1) :=
    (hs1.and (key_nodup _ hp1)).imp
      (fun h => lt_of_le_of_ne h.1 h.2)
  have hstrict2 : List.Pairwise entryLt (List.insertionSort entryLe m2) :=
    (hs2.and (key_nodup _ (hp2.trans hp.symm))).imp
      (fun h => lt_of_le_of_ne h.1 h.2)
  exact List.eq_of_perm_of_sorted hperm hstrict1 hstrict2

theorem tree_content_eq_of_perm (sha : List Nat → List Nat)
    {l1 l2 : List (String × FSEntry)}
    (hp : (tree_entries sha l1).Perm (tree_entries sha l2))
    (hnd : (l1.map Prod.fst).Nodup) :
    tree_content sha l1 = tree_content sha l2 := by
  unfold tree_content sorted_entries
  rw [insertionSort_eq_of_perm hp
    ((tree_entries_keys_sublist sha l1).nodup hnd)]

theorem snapEquiv_mode {a b : FSEntry} (h : SnapEquiv a b) :
    modeOf a = modeOf b := by
  cases h with
  | file c => rfl
  | nil => rfl
  | cons n e1 e2 l1 l2 l2' h1 h2 h3 => rfl

theorem wfsnap_dir_head {n : String} {e : FSEntry}
    {l : List (String × FSEntry)}
    (h : WFSnap (FSEntry.dir ((n, e) :: l))) :
    WFSnap e ∧ WFSnap (FSEntry.dir l) ∧
      (((n, e) :: l).map Prod.fst).Nodup := by
  cases h with
  | dir _ hnd hmem =>
    refine ⟨hmem (n, e) (List.mem_cons_self _ _), ?_, hnd⟩
    refine WFSnap.dir l ?_ (fun p hp => hmem p (List.mem_cons_of_mem _ hp))
    rw [List.map_cons] at hnd
    exact (List.nodup_cons.mp hnd).2

theorem snapEquiv_entries (sha : List Nat → List Nat) {a b : FSEntry}
    (h : SnapEquiv a b) :
    WFSnap a → entry_hash sha a = entry_hash sha b ∧
      ∀ l1 l2, a = FSEntry.dir l1 → b = FSEntry.dir l2 →
        (tree_entries sha l1).Perm (tree_entries sha l2) := by
  induction h with
  | file c =>
    intro _
    exact ⟨rfl, fun l1 l2 h1 _ => by cases h1⟩
  | nil =>
    intro _
    refine ⟨rfl, fun l1 l2 h1 h2 => ?_⟩
    cases h1
    cases h2
    exact List.Perm.refl _
  | cons n e1 e2 l1 l2 l2' he hd hperm ih1 ih2 =>
    intro hwf
    rcases wfsnap_dir_head hwf with ⟨hwe1, hwl1, hnd⟩
    have hrow : (modeOf e1, n, fromHex (entry_hash sha e1)) =
        (modeOf e2, n, fromHex (entry_hash sha e2)) := by
      rw [snapEquiv_mode he, (ih1 hwe1).1]
    have hpl : (tree_entries sha l1).Perm (tree_entries sha l2) :=
      (ih2 hwl1).2 l1 l2 rfl rfl
    have hp2' : (tree_entries sha ((n, e2) :: l2)).Perm
        (tree_entries sha l2') := by
      rw [tree_entries_eq_filterMap sha ((n, e2) :: l2),
        tree_entries_eq_filterMap sha l2']
      exact hperm.filterMap _
    have hpmain : (tree_entries sha ((n, e1) :: l1)).Perm
        (tree_entries sha l2') := by
      by_cases hmy : n = ".mygit"
      · have h1 : tree_entries sha ((n, e1) :: l1) = tree_entries sha l1 := by
          rw [tree_entries, if_pos hmy]
        have h2 : tree_entries sha ((n, e2) :: l2) = tree_entries sha l2 := by
          rw [tree_entries, if_pos hmy]
        rw [h1]
        exact hpl.trans (h2 ▸ hp2')
      · have h1 : tree_entries sha ((n, e1) :: l1) =
            (modeOf e1, n, fromHex (entry_hash sha e1)) ::
              tree_entries sha l1 := by
          rw [tree_entries, if_neg hmy]
        have h2 : tree_entries sha ((n, e2) :: l2) =
            (modeOf e2, n, fromHex (entry_hash sha e2)) ::
              tree_entries sha l2 := by
          rw [tree_entries, if_neg hmy]
        rw [h1, hrow]
        refine (hpl.cons _).trans ?_
        rw [← h2]
        exact hp2'
    constructor
    · rw [entry_hash_dir_eq, entry_hash_dir_eq]
      rw [tree_content_eq_of_perm sha hpmain hnd]
    · intro la lb hla hlb
      cases hla
      cases hlb
      exact hpmain

/-- C5: for every directory snapshot (unique names per directory, as on a
real filesystem), the tree object lists its entries sorted by name, and
two snapshots with identical structure and identical file contents whose
directories are enumerated in different on-disk orders produce bit-identical
tree objects and the same tree digest. -/
theorem C5_tree_determinism (sha : List Nat → List Nat) (a b : FSEntry)
    (heq : SnapEquiv a b) (hwf : WFSnap a) :
    entry_hash sha a = entry_hash sha b ∧
      (∀ l, List.Sorted entryLe (sorted_entries sha l)) ∧
      ∀ l1 l2, a = FSEntry.dir l1 → b = FSEntry.dir l2 →
        tree_content sha l1 = tree_content sha l2 := by
  rcases snapEquiv_entries sha heq hwf with ⟨h1, h2⟩
  refine ⟨h1,
    fun l => List.sorted_insertionSort entryLe (tree_entries sha l), ?_⟩
  intro l1 l2 hl1 hl2
  have hperm := h2 l1 l2 hl1 hl2
  have hnd : (l1.map Prod.fst).Nodup := by
    subst hl1
    cases hwf with
    | dir _ hnd _ => exact hnd
  exact tree_content_eq_of_perm sha hperm hnd

/-- Witness for C5: the two-file snapshot listed in both orders has the
same tree digest. -/
theorem C5_tree_determinism_witness :
    entry_hash shaW snapA = entry_hash shaW snapB :=
  (C5_tree_determinism shaW snapA snapB
    (SnapEquiv.cons "b" (FSEntry.file [1]) (FSEntry.file [1])
      [("a", FSEntry.file [2])] [("a", FSEntry.file [2])]
      [("a", FSEntry.file [2]), ("b", FSEntry.file [1])]
      (SnapEquiv.file [1])
      (SnapEquiv.cons "a" (FSEntry.file [2]) (FSEntry.file [2]) [] []
        [("a", FSEntry.file [2])] (SnapEquiv.file [2]) SnapEquiv.nil
        (List.Perm.refl _))
      (List.Perm.swap ("a", FSEntry.file [2]) ("b", FSEntry.file [1]) []))
    (WFSnap.dir _ (by decide) (by
      intro p hp
      rcases List.mem_cons.mp hp with rfl | hp2
      · exact WFSnap.file _
      · rcases List.mem_cons.mp hp2 with rfl | hp3
        · exact WFSnap.file _
        · cases hp3))).1

/-! ### Claim C6: Merkle sensitivity — supporting lemmas -/

theorem append_sep_inj {sep : Nat} {a1 a2 t1 t2 : List Nat}
    (h1 : ∀ x ∈ a1, x ≠ sep) (h2 : ∀ x ∈ a2, x ≠ sep)
    (he : a1 ++ sep :: t1 = a2 ++ sep :: t2) : a1 = a2 ∧ t1 = t2 := by
  induction a1 generalizing a2 with
  | nil =>
    cases a2 with
    | nil => simpa using he
    | cons b rest =>
      rw [List.nil_append, List.cons_append] at he
      have hb : b ≠ sep := h2 b (by simp)
      exact absurd (List.head_eq_of_cons_eq he).symm hb
  | cons b rest ih =>
    cases a2 with
    | nil =>
      rw [List.cons_append, List.nil_append] at he
      have hb : b ≠ sep := h1 b (by simp)
      exact absurd (List.head_eq_of_cons_eq he) hb
    | cons b2 rest2 =>
      rw [List.cons_append, List.cons_append] at he
      have hb : b = b2 := List.head_eq_of_cons_eq he
      have htl := List.tail_eq_of_cons_eq he
      have := ih (fun x hx => h1 x (by simp [hx]))
        (fun x hx => h2 x (by simp [hx])) htl
      exact ⟨by rw [hb, this.1], this.2⟩

theorem full_data_payload_inj {t : String}
    (ht : ∀ c ∈ t.data, isSpaceChar c = false ∧ c.toNat ≠ 0)
    {p q : List Nat} (h : full_data t p = full_data t q) : p = q := by
  unfold full_data header_str at h
  have hnz1 : ∀ b ∈ strToBytes (t ++ " " ++ decRepr p.length), b ≠ 0 := by
    intro b hb
    rcases List.mem_map.mp hb with ⟨c, hc, rfl⟩
    exact (header_char_conditions p.length ht c hc).1
  have hnz2 : ∀ b ∈ strToBytes (t ++ " " ++ decRepr q.length), b ≠ 0 := by
    intro b hb
    rcases List.mem_map.mp hb with ⟨c, hc, rfl⟩
    exact (header_char_conditions q.length ht c hc).1
  exact (append_sep_inj hnz1 hnz2 h).2

theorem serializeEntries_cons (x : TEntry) (l : List TEntry) :
    serializeEntries (x :: l) =
      (strToBytes x.1 ++ 32 :: (strToBytes x.2.1 ++ 0 :: x.2.2)) ++
        serializeEntries l := rfl

theorem serializeEntries_append (a b : List TEntry) :
    serializeEntries (a ++ b) = serializeEntries a ++ serializeEntries b := by
  induction a with
  | nil => rfl
  | cons x rest ih =>
    rw [List.cons_append, serializeEntries_cons, serializeEntries_cons, ih]
    simp [List.append_assoc]

theorem pairwise_lt_of_sorted_nodup {s : List TEntry}
    (hs : List.Pairwise entryLe s)
    (hnd : (s.map (fun e => e.2.1)).Nodup) : List.Pairwise entryLt s := by
  have hne : s.Pairwise (fun a b => a.2.1 ≠ b.2.1) := by
    unfold List.Nodup at hnd
    rw [List.pairwise_map] at hnd
    exact hnd
  exact (hs.and hne).imp (fun h => lt_of_le_of_ne h.1 h.2)

theorem perm_replace_mid {P S A B : List TEntry} {x x2 : TEntry}
    (h : (P ++ x :: S).Perm (A ++ x :: B)) :
    (P ++ x2 :: S).Perm (A ++ x2 :: B) := by
  have h1 : (P ++ S).Perm (A ++ B) :=
    ((List.perm_middle.symm.trans h).trans List.perm_middle).cons_inv
  exact (List.perm_middle.trans ((h1.cons x2).trans List.perm_middle.symm))

theorem sorted_replace_key {P S : List TEntry} {x x2 : TEntry}
    (hk : x2.2.1 = x.2.1) (h : List.Pairwise entryLe (P ++ x :: S)) :
    List.Pairwise entryLe (P ++ x2 :: S) := by
  rw [List.pairwise_append] at h ⊢
  rcases h with ⟨hP, hxS, hcross⟩
  rw [List.pairwise_cons] at hxS ⊢
  refine ⟨hP, ⟨?_, hxS.2⟩, ?_⟩
  · intro b hb
    have := hxS.1 b hb
    unfold entryLt entryLe at *
    rw [hk]
    exact this
  · intro a ha b hb
    rcases List.mem_cons.mp hb with rfl | hb2
    · have := hcross a ha x (List.mem_cons_self _ _)
      unfold entryLe at *
      rw [hk]
      exact this
    · exact hcross a ha b (List.mem_cons_of_mem _ hb2)

theorem get?_set_same {l : List (String × FSEntry)} {i : Nat}
    {p q : String × FSEntry} (h : l.get? i = some p) :
    (l.set i q).get? i = some q := by
  rw [List.get?_set_eq, h]
  rfl

theorem get?_set_other {l : List (String × FSEntry)} {i j : Nat}
    (q : String × FSEntry) (h : j ≠ i) :
    (l.set i q).get? j = l.get? j :=
  List.get?_set_ne q l (fun hh => h hh.symm)

theorem updateAt_mode {e e2 : FSEntry} {p : List Nat} {c : List Nat}
    (h : updateAt e p c = some e2) : modeOf e2 = modeOf e := by
  cases e with
  | file d =>
    cases p with
    | nil =>
      rw [updateAt] at h
      cases h
      rfl
    | cons i rest =>
      rw [updateAt] at h
      cases h
  | dir items =>
    cases p with
    | nil =>
      rw [updateAt] at h
      cases h
    | cons i rest =>
      rw [updateAt] at h
      cases hg : items.get? i with
      | none =>
        rw [hg] at h
        cases h
      | some pr =>
        simp only [hg] at h
        cases hu : updateAt pr.2 rest c with
        | none =>
          simp only [hu] at h
          exact Option.noConfusion h
        | some c2 =>
          simp only [hu] at h
          cases h
          rfl

theorem tree_entries_set (sha : List Nat → List Nat) :
    ∀ (items : List (String × FSEntry)) (i : Nat) (name : String)
      (child child2 : FSEntry),
      items.get? i = some (name, child) → name ≠ ".mygit" →
      ∃ A B, tree_entries sha items =
          A ++ (modeOf child, name, fromHex (entry_hash sha child)) :: B ∧
        tree_entries sha (items.set i (name, child2)) =
          A ++ (modeOf child2, name, fromHex (entry_hash sha child2)) :: B := by
  intro items
  induction items with
  | nil =>
    intro i name child child2 hg
    rw [List.get?_nil] at hg
    exact absurd hg (by simp)
  | cons p rest ih =>
    intro i name child child2 hg hname
    cases p with
    | mk n0 e0 =>
      cases i with
      | zero =>
        rw [List.get?_cons_zero] at hg
        cases hg
        refine ⟨[], tree_entries sha rest, ?_, ?_⟩
        · rw [tree_entries, if_neg hname, List.nil_append]
        · rw [List.set_cons_zero, tree_entries, if_neg hname,
            List.nil_append]
      | succ j =>
        rw [List.get?_cons_succ] at hg
        rcases ih j name child child2 hg hname with ⟨A, B, h1, h2⟩
        by_cases hmy : n0 = ".mygit"
        · refine ⟨A, B, ?_, ?_⟩
          · rw [tree_entries, if_pos hmy, h1]
          · rw [List.set_cons_succ, tree_entries, if_pos hmy, h2]
        · refine ⟨(modeOf e0, n0, fromHex (entry_hash sha e0)) :: A, B,
            ?_, ?_⟩
          · rw [tree_entries, if_neg hmy, h1, List.cons_append]
          · rw [List.set_cons_succ, tree_entries, if_neg hmy, h2,
              List.cons_append]

theorem tree_content_row_change (sha : List Nat → List Nat)
    {items : List (String × FSEntry)} {i : Nat} {name : String}
    {child child2 : FSEntry}
    (hget : items.get? i = some (name, child))
    (hname : name ≠ ".mygit")
    (hnd : (items.map Prod.fst).Nodup)
    (hmode : modeOf child2 = modeOf child)
    (hdig : fromHex (entry_hash sha child2) ≠ fromHex (entry_hash sha child)) :
    tree_content sha (items.set i (name, child2)) ≠ tree_content sha items := by
  intro hcontent
  rcases tree_entries_set sha items i name child child2 hget hname with
    ⟨A, B, hm, hm2⟩
  set x : TEntry := (modeOf child, name, fromHex (entry_hash sha child))
    with hx
  set x2 : TEntry := (modeOf child2, name, fromHex (entry_hash sha child2))
    with hx2
  -- keys of the unsorted rows are nodup
  have hndm : ((tree_entries sha items).map (fun e => e.2.1)).Nodup :=
    (tree_entries_keys_sublist sha items).nodup hnd
  have hkeys2 : (tree_entries sha (items.set i (name, child2))).map
      (fun e => e.2.1) = (tree_entries sha items).map (fun e => e.2.1) := by
    rw [hm, hm2]
    simp [hx, hx2]
  -- the sorted rows of the original
  have hsorted : List.Sorted entryLe
      (List.insertionSort entryLe (tree_entries sha items)) :=
    List.sorted_insertionSort entryLe _
  have hperm : (List.insertionSort entryLe (tree_entries sha items)).Perm
      (tree_entries sha items) := List.perm_insertionSort entryLe _
  have hxmem : x ∈ List.insertionSort entryLe (tree_entries sha items) := by
    rw [hperm.mem_iff, hm]
    exact List.mem_append_right _ (List.mem_cons_self _ _)
  rcases List.append_of_mem hxmem with ⟨P, S, hPS⟩
  -- the candidate sorted rows of the modified directory
  have hCperm : (P ++ x2 :: S).Perm
      (tree_entries sha (items.set i (name, child2))) := by
    have hpm : (P ++ x :: S).Perm (A ++ x :: B) := by
      rw [← hPS, ← hm]
      exact hperm
    rw [hm2]
    exact perm_replace_mid hpm
  have hCsorted : List.Pairwise entryLe (P ++ x2 :: S) := by
    apply sorted_replace_key (by rw [hx, hx2]) (hPS ▸ hsorted)
  -- both are strictly sorted, hence equal
  have hndS : ((P ++ x :: S).map (fun e => e.2.1)).Nodup := by
    rw [← hPS]
    exact ((hperm.map (fun e => e.2.1)).nodup_iff).mpr hndm
  have hndC : ((P ++ x2 :: S).map (fun e => e.2.1)).Nodup := by
    have : (P ++ x2 :: S).map (fun e => e.2.1) =
        (P ++ x :: S).map (fun e => e.2.1) := by
      simp [hx, hx2]
    rw [this]
    exact hndS
  have hsort2 : List.insertionSort entryLe
      (tree_entries sha (items.set i (name, child2))) = P ++ x2 :: S := by
    have hp : (List.insertionSort entryLe
        (tree_entries sha (items.set i (name, child2)))).Perm
        (P ++ x2 :: S) :=
      (List.perm_insertionSort entryLe _).trans hCperm.symm
    have hstrict1 : List.Pairwise entryLt (List.insertionSort entryLe
        (tree_entries sha (items.set i (name, child2)))) := by
      apply pairwise_lt_of_sorted_nodup (List.sorted_insertionSort entryLe _)
      have := (hp.map (fun e => e.2.1)).nodup_iff
      exact this.mpr hndC
    have hstrict2 : List.Pairwise entryLt (P ++ x2 :: S) :=
      pairwise_lt_of_sorted_nodup hCsorted hndC
    exact List.eq_of_perm_of_sorted hp hstrict1 hstrict2
  -- serialize both and cancel the common parts
  have hser : serializeEntries (P ++ x2 :: S) =
      serializeEntries (P ++ x :: S) := by
    have h1 : tree_content sha (items.set i (name, child2)) =
        serializeEntries (P ++ x2 :: S) := by
      unfold tree_content sorted_entries
      rw [hsort2]
    have h2 : tree_content sha items = serializeEntries (P ++ x :: S) := by
      unfold tree_content sorted_entries
      rw [hPS]
    rw [← h1, ← h2, hcontent]
  rw [serializeEntries_append, serializeEntries_append,
    serializeEntries_cons, serializeEntries_cons] at hser
  have hser2 := List.append_cancel_left hser
  have hser3 := List.append_cancel_right hser2
  have hpieces : strToBytes x2.1 ++ 32 :: (strToBytes x2.2.1 ++ 0 :: x2.2.2) =
      strToBytes x.1 ++ 32 :: (strToBytes x.2.1 ++ 0 :: x.2.2) := hser3
  have hmodes : strToBytes x2.1 = strToBytes x.1 := by
    rw [hx, hx2]
    simp only
    rw [hmode]
  rw [hmodes] at hpieces
  have h4 := List.append_cancel_left hpieces
  have h5 := List.tail_eq_of_cons_eq h4
  have h6 := List.append_cancel_left h5
  have h7 := List.tail_eq_of_cons_eq h6
  exact hdig h7

theorem wf_subAt {q : List Nat} :
    ∀ {root s : FSEntry}, WFSnap root → subAt root q = some s → WFSnap s := by
  induction q with
  | nil =>
    intro root s hwf h
    rw [subAt] at h
    cases h
    exact hwf
  | cons i rest ih =>
    intro root s hwf h
    cases root with
    | file d =>
      rw [subAt] at h
      exact Option.noConfusion h
    | dir items =>
      rw [subAt] at h
      cases hg : items.get? i with
      | none =>
        rw [hg] at h
        exact Option.noConfusion h
      | some p =>
        rw [hg] at h
        cases hwf with
        | dir _ hnd hmem => exact ih (hmem p (List.get?_mem hg)) h

theorem subAt_take_update :
    ∀ (path : List Nat) (k : Nat) (root root2 : FSEntry) (cNew : List Nat),
      updateAt root path cNew = some root2 →
      ∀ s, subAt root (path.take k) = some s →
      ∃ s2, subAt root2 (path.take k) = some s2 ∧
        updateAt s (path.drop k) cNew = some s2 := by
  intro path
  induction path with
  | nil =>
    intro k root root2 cNew hupd s hs
    rw [List.take_nil, subAt] at hs
    cases hs
    exact ⟨root2, by rw [List.take_nil, subAt], by rwa [List.drop_nil]⟩
  | cons i rest ih =>
    intro k root root2 cNew hupd s hs
    cases k with
    | zero =>
      rw [List.take_zero, subAt] at hs
      cases hs
      exact ⟨root2, by rw [List.take_zero, subAt], by rwa [List.drop_zero]⟩
    | succ j =>
      cases root with
      | file d =>
        rw [List.take_succ_cons, subAt] at hs
        exact absurd hs (by simp)
      | dir items =>
        rw [updateAt] at hupd
        cases hg : items.get? i with
        | none =>
          rw [hg] at hupd
          exact absurd hupd (by simp)
        | some p =>
          simp only [hg] at hupd
          cases hu : updateAt p.2 rest cNew with
          | none =>
            simp only [hu] at hupd
            exact Option.noConfusion hupd
          | some child2 =>
            simp only [hu] at hupd
            cases hupd
            rw [List.take_succ_cons, subAt, hg] at hs
            rcases ih j p.2 child2 cNew hu s hs with ⟨s2, h1, h2⟩
            refine ⟨s2, ?_, by rwa [List.drop_succ_cons]⟩
            rw [List.take_succ_cons, subAt, get?_set_same hg]
            exact h1

theorem avoidsMygit_sub :
    ∀ (path : List Nat) (k : Nat) (root s : FSEntry),
      avoidsMygit root path = true → subAt root (path.take k) = some s →
      avoidsMygit s (path.drop k) = true := by
  intro path
  induction path with
  | nil =>
    intro k root s _ _
    rw [List.drop_nil, avoidsMygit]
  | cons i rest ih =>
    intro k root s hmy hs
    cases k with
    | zero =>
      rw [List.take_zero, subAt] at hs
      cases hs
      rwa [List.drop_zero]
    | succ j =>
      cases root with
      | file d =>
        rw [List.take_succ_cons, subAt] at hs
        exact absurd hs (by simp)
      | dir items =>
        rw [List.take_succ_cons, subAt] at hs
        cases hg : items.get? i with
        | none =>
          rw [hg] at hs
          exact absurd hs (by simp)
        | some p =>
          rw [hg] at hs
          rw [avoidsMygit, hg] at hmy
          rw [Bool.and_eq_true] at hmy
          rw [List.drop_succ_cons]
          exact ih j p.2 s hmy.2 hs

theorem subAt_update_frame :
    ∀ (path : List Nat) (root root2 : FSEntry) (cNew : List Nat),
      updateAt root path cNew = some root2 →
      ∀ q : List Nat, path.take q.length ≠ q → subAt root2 q = subAt root q := by
  intro path
  induction path with
  | nil =>
    intro root root2 cNew hupd q hq
    cases root with
    | dir items =>
      rw [updateAt] at hupd
      exact Option.noConfusion hupd
    | file d =>
      rw [updateAt] at hupd
      cases hupd
      cases q with
      | nil => exact absurd (List.take_nil) hq
      | cons j q2 =>
        simp [subAt]
  | cons i rest ih =>
    intro root root2 cNew hupd q hq
    cases root with
    | file d =>
      rw [updateAt] at hupd
      exact Option.noConfusion hupd
    | dir items =>
      rw [updateAt] at hupd
      cases hg : items.get? i with
      | none =>
        rw [hg] at hupd
        exact Option.noConfusion hupd
      | some p =>
        simp only [hg] at hupd
        cases hu : updateAt p.2 rest cNew with
        | none =>
          simp only [hu] at hupd
          exact Option.noConfusion hupd
        | some child2 =>
          simp only [hu] at hupd
          cases hupd
          cases q with
          | nil => exact absurd (List.take_zero _) hq
          | cons j q2 =>
            by_cases hij : j = i
            · subst hij
              have htl : rest.take q2.length ≠ q2 := by
                intro h
                apply hq
                rw [List.length_cons, List.take_succ_cons, h]
              rw [subAt, subAt, get?_set_same hg, hg]
              exact ih p.2 child2 cNew hu q2 htl
            · simp only [subAt, get?_set_other _ hij]

theorem hash_changes (sha : List Nat → List Nat)
    (hinj : Function.Injective (fun x => fromHex (toHex (sha x)))) :
    ∀ (path : List Nat) (root root2 : FSEntry) (c cNew : List Nat),
      WFSnap root →
      subAt root path = some (FSEntry.file c) →
      updateAt root path cNew = some root2 →
      avoidsMygit root path = true →
      cNew ≠ c →
      fromHex (entry_hash sha root2) ≠ fromHex (entry_hash sha root) := by
  intro path
  induction path with
  | nil =>
    intro root root2 c cNew hwf hold hupd hmy hne
    rw [subAt] at hold
    cases hold
    rw [updateAt] at hupd
    cases hupd
    intro heq
    have h1 : fromHex (toHex (sha (full_data "blob" cNew))) =
        fromHex (toHex (sha (full_data "blob" c))) := by
      simpa [entry_hash, hash_object] using heq
    have h2 := hinj h1
    exact hne (full_data_payload_inj (by decide) h2)
  | cons i rest ih =>
    intro root root2 c cNew hwf hold hupd hmy hne
    cases root with
    | file d =>
      rw [subAt] at hold
      exact Option.noConfusion hold
    | dir items =>
      rw [updateAt] at hupd
      cases hg : items.get? i with
      | none =>
        rw [hg] at hupd
        exact Option.noConfusion hupd
      | some p =>
        simp only [hg] at hupd
        cases hu : updateAt p.2 rest cNew with
        | none =>
          simp only [hu] at hupd
          exact Option.noConfusion hupd
        | some child2 =>
          simp only [hu] at hupd
          cases hupd
          rw [subAt, hg] at hold
          rw [avoidsMygit, hg] at hmy
          rw [Bool.and_eq_true] at hmy
          rcases hmy with ⟨hname, hmy2⟩
          have hnamene : p.1 ≠ ".mygit" := by
            simpa using hname
          have hwfc : WFSnap p.2 := by
            cases hwf with
            | dir _ hnd hmem => exact hmem p (List.get?_mem hg)
          have hnd : (items.map Prod.fst).Nodup := by
            cases hwf with
            | dir _ hnd _ => exact hnd
          have hdig : fromHex (entry_hash sha child2) ≠
              fromHex (entry_hash sha p.2) :=
            ih p.2 child2 c cNew hwfc hold hu hmy2 hne
          have hget2 : items.get? i = some (p.1, p.2) := by
            rwa [Prod.mk.eta]
          have hcont : tree_content sha (items.set i (p.1, child2)) ≠
              tree_content sha items :=
            tree_content_row_change sha hget2 hnamene hnd
              (updateAt_mode hu) hdig
          intro heq
          rw [entry_hash_dir_eq, entry_hash_dir_eq] at heq
          have h1 : fromHex (toHex (sha (full_data "tree"
              (tree_content sha (items.set i (p.1, child2)))))) =
              fromHex (toHex (sha (full_data "tree"
                (tree_content sha items)))) := by
            simpa [hash_object] using heq
          have h2 := hinj h1
          exact hcont (full_data_payload_inj (by decide) h2)

/-! ### Injectivity of the concrete witness digest function -/

theorem digits16Core_lt {fuel n : Nat} :
    ∀ d ∈ digits16Core fuel n, d < 16 := by
  induction fuel generalizing n with
  | zero =>
    intro d hd
    simp [digits16Core] at hd
  | succ f ih =>
    intro d hd
    cases n with
    | zero => simp [digits16Core] at hd
    | succ m =>
      rw [digits16Core, List.mem_append] at hd
      rcases hd with hd | hd
      · exact ih d hd
      · have : d = (m + 1) % 16 := by simpa using hd
        subst this
        exact Nat.mod_lt _ (by omega)

theorem val16_append (xs : List Nat) (d : Nat) :
    val16 (xs ++ [d]) = 16 * val16 xs + d := by
  unfold val16
  rw [List.foldl_append]
  rfl

theorem val16_digits16Core : ∀ fuel n, n ≤ fuel →
    val16 (digits16Core fuel n) = n := by
  intro fuel
  induction fuel with
  | zero =>
    intro n hn
    interval_cases n
    rfl
  | succ f ih =>
    intro n hn
    cases n with
    | zero => rfl
    | succ m =>
      rw [digits16Core, val16_append]
      have hdiv : (m + 1) / 16 ≤ f := by
        have h1 : (m + 1) / 16 < m + 1 := Nat.div_lt_self (by omega) (by omega)
        omega
      rw [ih _ hdiv]
      exact Nat.div_add_mod (m + 1) 16

theorem shaW_inj : Function.Injective shaW := by
  intro l1 l2 h
  induction l1 generalizing l2 with
  | nil =>
    cases l2 with
    | nil => rfl
    | cons b r2 =>
      have : (shaW [] : List Nat) = [] := rfl
      rw [this] at h
      have h2 : shaW (b :: r2) = encB b ++ catMap encB r2 := rfl
      rw [h2] at h
      have : encB b ++ catMap encB r2 ≠ [] := by
        unfold encB
        simp
      exact absurd h.symm this
  | cons a r ih =>
    cases l2 with
    | nil =>
      have h2 : shaW (a :: r) = encB a ++ catMap encB r := rfl
      rw [h2] at h
      have : encB a ++ catMap encB r ≠ [] := by
        unfold encB
        simp
      exact absurd h this
    | cons b r2 =>
      have ha : shaW (a :: r) =
          digits16Core a a ++ 16 :: catMap encB r := by
        show encB a ++ catMap encB r = _
        unfold encB
        rw [List.append_assoc]
        rfl
      have hb : shaW (b :: r2) =
          digits16Core b b ++ 16 :: catMap encB r2 := by
        show encB b ++ catMap encB r2 = _
        unfold encB
        rw [List.append_assoc]
        rfl
      rw [ha, hb] at h
      have hd1 : ∀ x ∈ digits16Core a a, x ≠ 16 := by
        intro x hx
        have := digits16Core_lt x hx
        omega
      have hd2 : ∀ x ∈ digits16Core b b, x ≠ 16 := by
        intro x hx
        have := digits16Core_lt x hx
        omega
      rcases append_sep_inj hd1 hd2 h with ⟨hdig, hrest⟩
      have hab : a = b := by
        have h1 := val16_digits16Core a a (le_refl a)
        have h2 := val16_digits16Core b b (le_refl b)
        rw [← h1, ← h2, hdig]
      have hr : r = r2 := ih hrest
      rw [hab, hr]

theorem hexVal_hexChar {d : Nat} (h : d < 16) : hexVal (hexChar d) = d := by
  interval_cases d <;> decide

theorem fromHex_toHex {l : List Nat} (h : ∀ b ∈ l, b < 256) :
    fromHex (toHex l) = l := by
  induction l with
  | nil => rfl
  | cons b r ih =>
    have hb : b < 256 := h b (by simp)
    have hdata : (toHex (b :: r)).data =
        hexChar (b / 16 % 16) :: hexChar (b % 16) :: (toHex r).data := by
      simp [toHex]
    unfold fromHex
    rw [hdata]
    rw [fromHexChars]
    have hdivlt : b / 16 < 16 := by omega
    have h1 : hexVal (hexChar (b / 16 % 16)) = b / 16 % 16 :=
      hexVal_hexChar (Nat.mod_lt _ (by omega))
    have h2 : hexVal (hexChar (b % 16)) = b % 16 :=
      hexVal_hexChar (Nat.mod_lt _ (by omega))
    rw [h1, h2, Nat.mod_eq_of_lt hdivlt]
    rw [Nat.div_add_mod b 16]
    have : fromHexChars (toHex r).data = r := ih (fun x hx => h x (by simp [hx]))
    rw [this]

theorem shaW_bytes_lt (l : List Nat) : ∀ b ∈ shaW l, b < 256 := by
  induction l with
  | nil =>
    intro b hb
    simp [shaW, catMap] at hb
  | cons a r ih =>
    intro b hb
    have : shaW (a :: r) = encB a ++ shaW r := rfl
    rw [this, List.mem_append] at hb
    rcases hb with hb | hb
    · unfold encB at hb
      rw [List.mem_append] at hb
      rcases hb with hb | hb
      · have := digits16Core_lt b hb
        omega
      · have : b = 16 := by simpa using hb
        omega
    · exact ih b hb

theorem shaW_hinj : Function.Injective (fun x => fromHex (toHex (shaW x))) := by
  intro a b h
  simp only at h
  rw [fromHex_toHex (shaW_bytes_lt a), fromHex_toHex (shaW_bytes_lt b)] at h
  exact shaW_inj h

theorem subAt_append (q r : List Nat) :
    ∀ e : FSEntry,
      subAt e (q ++ r) = (subAt e q).bind (fun s => subAt s r) := by
  induction q with
  | nil =>
    intro e
    rw [List.nil_append]
    simp [subAt]
  | cons i q2 ih =>
    intro e
    cases e with
    | file d =>
      rw [List.cons_append]
      simp [subAt]
    | dir items =>
      rw [List.cons_append]
      simp only [subAt]
      cases hg : items.get? i with
      | none => simp only [hg]; rfl
      | some p =>
        simp only [hg]
        exact ih p.2

/-- C6 (amended): for every well-formed snapshot and every file reachable
without any path component named `.mygit` (which `create_tree` skips at
every level), changing the file's bytes changes its blob digest, the digest
of the tree that directly contains it and of every ancestor tree up to the
root (every prefix of the path), while every subtree off the changed path
is completely unchanged — assuming only that the digest function is
collision-free (injective through the hex encoding). -/
theorem C6_merkle_sensitivity (sha : List Nat → List Nat)
    (hinj : Function.Injective (fun x => fromHex (toHex (sha x))))
    (root root2 : FSEntry) (path : List Nat) (c cNew : List Nat)
    (hwf : WFSnap root)
    (hold : subAt root path = some (FSEntry.file c))
    (hupd : updateAt root path cNew = some root2)
    (hmy : avoidsMygit root path = true)
    (hne : cNew ≠ c) :
    entry_hash sha (FSEntry.file cNew) ≠ entry_hash sha (FSEntry.file c) ∧
      (∀ k, k ≤ path.length → ∀ s s2,
        subAt root (path.take k) = some s →
        subAt root2 (path.take k) = some s2 →
        entry_hash sha s2 ≠ entry_hash sha s) ∧
      ∀ q : List Nat, path.take q.length ≠ q →
        subAt root2 q = subAt root q := by
  refine ⟨?_, ?_, subAt_update_frame path root root2 cNew hupd⟩
  · intro heq
    have h1 : fromHex (toHex (sha (full_data "blob" cNew))) =
        fromHex (toHex (sha (full_data "blob" c))) := by
      have := congrArg fromHex heq
      simpa [entry_hash, hash_object] using this
    exact hne (full_data_payload_inj (by decide) (hinj h1))
  · intro k hk s s2 hs hs2
    rcases subAt_take_update path k root root2 cNew hupd s hs with
      ⟨s2', h1, h2⟩
    have hss : s2' = s2 := Option.some.inj (h1.symm.trans hs2)
    have hsplit : subAt s (path.drop k) = some (FSEntry.file c) := by
      have h3 := subAt_append (path.take k) (path.drop k) root
      rw [List.take_append_drop] at h3
      rw [hs] at h3
      rw [hold] at h3
      exact h3.symm
    have hwfs : WFSnap s := wf_subAt hwf hs
    have hmys : avoidsMygit s (path.drop k) = true :=
      avoidsMygit_sub path k root s hmy hs
    have hfr := hash_changes sha hinj (path.drop k) s s2' c cNew hwfs hsplit
      h2 hmys hne
    intro heq
    apply hfr
    rw [hss, heq]

/-- Counterexample to C6 as stated: changing the byte of a file that lives
inside a directory named `.mygit` (a name `create_tree` skips at every
level, not only at the root) changes neither the digest of the tree that
directly contains it nor the root digest, even with an injective digest
function. -/
theorem C6_mygit_cex :
    subAt mygitSnapA [0, 0] = some (FSEntry.file [1]) ∧
      updateAt mygitSnapA [0, 0] [2] = some mygitSnapB ∧
      ([2] : List Nat) ≠ [1] ∧
      entry_hash shaW mygitSnapB = entry_hash shaW mygitSnapA ∧
      entry_hash shaW (FSEntry.dir [(".mygit", FSEntry.file [2])]) =
        entry_hash shaW (FSEntry.dir [(".mygit", FSEntry.file [1])]) := by
  refine ⟨?_, ?_, by decide, ?_, ?_⟩
  · simp [mygitSnapA, subAt]
  · simp [mygitSnapA, mygitSnapB, updateAt]
  · simp [mygitSnapA, mygitSnapB, entry_hash, tree_entries, modeOf]
  · simp [entry_hash, tree_entries]

/-- Witness for C6 at a concrete input: changing the nested file changes
the root digest while the sibling subtree at index 0 is untouched. -/
theorem C6_merkle_sensitivity_witness :
    entry_hash shaW merkleW2 ≠ entry_hash shaW merkleW ∧
      subAt merkleW2 [0] = subAt merkleW [0] := by
  have hmain := C6_merkle_sensitivity shaW shaW_hinj merkleW merkleW2
    [1, 0] [20] [21]
    (by
      refine WFSnap.dir _ (by decide) ?_
      intro p hp
      rcases List.mem_cons.mp hp with rfl | hp2
      · exact WFSnap.file _
      · rcases List.mem_cons.mp hp2 with rfl | hp3
        · refine WFSnap.dir _ (by decide) ?_
          intro q hq
          rcases List.mem_cons.mp hq with rfl | hq2
          · exact WFSnap.file _
          · cases hq2
        · cases hp3)
    (by simp [merkleW, subAt])
    (by simp [merkleW, merkleW2, updateAt])
    (by simp [merkleW, avoidsMygit])
    (by decide)
  refine ⟨?_, hmain.2.2 [0] (by decide)⟩
  exact hmain.2.1 0 (by omega) merkleW merkleW2 (by simp [subAt])
    (by simp [subAt])
